import Mathlib

/-!
Verification of the symchat Research Orchestration Engine.

Shallow embedding of the research engine (`deep-research` module, second
revision in `part_008`), the search cache (`search-cache.ts`), the query
planner, deduplicator and ranker, together with proofs of the specified
properties.

Modelling conventions:
* JavaScript strings are Lean `String`s; `.toLowerCase`, `.trim`,
  `.includes`, `.split(/\s+/)`, `.replace(/\s+/g, " ")` are embedded as
  executable functions over `List Char`.
* `Date.now()` and `new Date().getFullYear()` are explicit `Nat`
  parameters (`now` in milliseconds, `year`).
* A JavaScript `Map` is an association list in insertion order:
  `set` of an existing key updates in place, `set` of a new key appends,
  iteration order is insertion order.
* The search provider is a total function `String → ProviderOutcome`
  covering the three observable behaviours of the timed `webSearch`
  race: resolution with a response, rejection with an error message, and
  timeout.
* The concurrent batch (`Promise.all` over at most 3 steps) is
  serialized in batch order; this is observationally faithful here
  because the planner never produces two queries with the same cache
  key in one run, and no claim depends on intra-batch interleaving.
-/

/-! ## JavaScript string primitives -/

/-- JS `s.toLowerCase()` (ASCII case mapping, as `Char.toLower`), executable
by the kernel. -/
def jsToLower (s : String) : String :=
  String.mk (s.toList.map Char.toLower)

/-- JS `s.trim()`: strip leading and trailing whitespace. -/
def jsTrim (s : String) : String :=
  String.mk (((s.toList.dropWhile Char.isWhitespace).reverse.dropWhile Char.isWhitespace).reverse)

/-- JS word character class `\w` = `[A-Za-z0-9_]`. -/
def isWordChar (c : Char) : Bool :=
  c.isAlpha || c.isDigit || c = '_'

/-- Substring test via `needle.isPrefixOf hay`; JS `hay.includes(needle)`
(the empty needle is contained in every string). -/
def containsSub : List Char → List Char → Bool
  | n, [] => n.isEmpty
  | n, h :: t => List.isPrefixOf n (h :: t) || containsSub n t

/-- JS `hay.includes(needle)` on strings. -/
def strIncludes (hay needle : String) : Bool :=
  containsSub needle.toList hay.toList

/-- Does `needle` match at the head of `hay` with a word boundary after it?
(All needles used here begin and end with word characters, so `\b`
reduces to: the neighbouring character, if any, is not a word character.) -/
def wbMatchHere (needle hay : List Char) : Bool :=
  List.isPrefixOf needle hay &&
    (match hay.drop needle.length with
     | [] => true
     | c :: _ => !(isWordChar c))

/-- Search `hay` for a `\b needle \b` match; `prevWord` records whether the
character just before the current position is a word character (`false`
at the start of the string). -/
def wbSearch (needle : List Char) : Bool → List Char → Bool
  | _, [] => false
  | prevWord, c :: t =>
    ((!prevWord) && wbMatchHere needle (c :: t)) || wbSearch needle (isWordChar c) t

/-- JS `/\b(a1|a2|...)\b/i.test(s)`: case-insensitive word-bounded search
for any of the (lowercase, word-delimited) alternatives. -/
def regexWordTest (alts : List String) (s : String) : Bool :=
  let ls := (jsToLower s).toList
  alts.any (fun a => wbSearch a.toList false ls)

/-- JS `s.split(/\s+/)`: split at maximal whitespace runs; a leading or
trailing run contributes an empty piece, and the empty string yields
`[""]`. `inWs` records whether we are inside a whitespace run, `cur` is
the reversed accumulator of the current piece. -/
def wsSplitAux (inWs : Bool) (cur : List Char) : List Char → List String
  | [] => [String.mk cur.reverse]
  | c :: rest =>
    if c.isWhitespace then
      if inWs then wsSplitAux true cur rest
      else String.mk cur.reverse :: wsSplitAux true [] rest
    else wsSplitAux false (c :: cur) rest

/-- JS `s.split(/\s+/)` on strings. -/
def jsSplitWs (s : String) : List String :=
  wsSplitAux false [] s.toList

/-- JS `s.replace(/\s+/g, " ")`: collapse each maximal whitespace run to a
single space. `prevWs` records whether the previous character was
whitespace. -/
def collapseWsAux (prevWs : Bool) : List Char → List Char
  | [] => []
  | c :: rest =>
    if c.isWhitespace then
      (if prevWs then [] else [' ']) ++ collapseWsAux true rest
    else c :: collapseWsAux false rest

/-- JS `s.replace(/\s+/g, " ")` on strings. -/
def jsCollapseWs (s : String) : String :=
  String.mk (collapseWsAux false s.toList)

/-! ## Data model (`web-search` interfaces) -/

/-- Interface `SearchResult` from `web-search`; `relevanceScore` models the property
dynamically attached by the ranker (absent on provider output). -/
structure SearchResult where
  title : String
  url : String
  snippet : String
  source : Option String := none
  relevanceScore : Option Nat := none
deriving DecidableEq, BEq

/-- Interface `SearchResponse` from `web-search`. -/
structure SearchResponse where
  results : List SearchResult
  query : String
  timestamp : String
deriving DecidableEq, BEq

/-! ## Query Planner (`generateResearchQueries`) -/

/-- Test `lowerQuery.includes("who is") || /\b(person|...|scientist)\b/i.test(mainQuery)`. -/
def isPersonQuery (mainQuery : String) : Bool :=
  strIncludes (jsToLower mainQuery) "who is" ||
    regexWordTest ["person", "people", "ceo", "founder", "author", "artist", "scientist"] mainQuery

/-- Test `/\b(review|product|service|app|software|tool|device)\b/i.test(mainQuery)`. -/
def isProductQuery (mainQuery : String) : Bool :=
  regexWordTest ["review", "product", "service", "app", "software", "tool", "device"] mainQuery

/-- Test `/\b(vs|versus|compare|difference between|better than)\b/i.test(mainQuery)`. -/
def isComparison (mainQuery : String) : Bool :=
  regexWordTest ["vs", "versus", "compare", "difference between", "better than"] mainQuery

/-- Test `lowerQuery.includes("how to") || lowerQuery.includes("how do")`. -/
def isHowTo (mainQuery : String) : Bool :=
  strIncludes (jsToLower mainQuery) "how to" || strIncludes (jsToLower mainQuery) "how do"

/-- The category-specific template queries pushed after the main query. -/
def branchQueries (mainQuery : String) (year : Nat) : List String :=
  if isPersonQuery mainQuery then
    [mainQuery ++ " biography and background",
     mainQuery ++ " achievements and contributions",
     mainQuery ++ " latest news"]
  else if isProductQuery mainQuery then
    [mainQuery ++ " review and ratings",
     mainQuery ++ " features and specifications",
     mainQuery ++ " pros and cons",
     mainQuery ++ " alternatives and competitors"]
  else if isComparison mainQuery then
    [mainQuery ++ " detailed comparison",
     mainQuery ++ " which is better",
     mainQuery ++ " user experiences"]
  else if isHowTo mainQuery then
    [mainQuery ++ " step by step guide",
     mainQuery ++ " tutorial",
     mainQuery ++ " best practices"]
  else
    [mainQuery ++ " comprehensive overview",
     mainQuery ++ " latest developments " ++ toString year,
     mainQuery ++ " expert analysis and insights",
     mainQuery ++ " statistics and data",
     mainQuery ++ " real world examples and use cases"]

/-- The optional current-year query for time-sensitive topics. -/
def recencyQueries (mainQuery : String) (year : Nat) : List String :=
  if strIncludes (jsToLower mainQuery) "latest" || strIncludes (jsToLower mainQuery) "recent" ||
      strIncludes (jsToLower mainQuery) "current" then
    [mainQuery ++ " " ++ toString year]
  else []

/-- All queries pushed by `generateResearchQueries`, before `slice(0, 8)`. -/
def rawQueries (mainQuery : String) (year : Nat) : List String :=
  (mainQuery :: branchQueries mainQuery year) ++ recencyQueries mainQuery year

/-- Function `generateResearchQueries` (second revision): main query, then the
category templates, then the optional year query, truncated to 8. -/
def generateResearchQueries (mainQuery : String) (year : Nat) : List String :=
  (rawQueries mainQuery year).take 8

/-! ## Deduplicator (`deduplicateResults`) -/

/-- Key `result.url.split("?")[0].split("#")[0].toLowerCase()`. -/
def normalizeUrl (url : String) : String :=
  String.mk (((url.toList.takeWhile (· ≠ '?')).takeWhile (· ≠ '#')).map Char.toLower)

/-- The `seen`-set loop of `deduplicateResults`. -/
def dedupAux (seen : List String) : List SearchResult → List SearchResult
  | [] => []
  | r :: rest =>
    let n := normalizeUrl r.url
    if seen.contains n then dedupAux seen rest
    else r :: dedupAux (n :: seen) rest

/-- Function `deduplicateResults`: keep the first occurrence of each normalized URL. -/
def deduplicateResults (allResults : List SearchResult) : List SearchResult :=
  dedupAux [] allResults

/-! ## Ranker (`rankResults`) -/

/-- Tokens `mainQuery.toLowerCase().split(/\s+/)`. -/
def queryTerms (mainQuery : String) : List String :=
  jsSplitWs (jsToLower mainQuery)

/-- The fixed trusted-domain allowlist. -/
def trustedDomains : List String :=
  ["wikipedia.org", "github.com", ".edu", ".gov", "stackoverflow.com"]

/-- Contribution of one query term: skipped if shorter than 3 characters,
otherwise +3 for a title substring match and +1 for a snippet substring
match (`title`/`snippet` already lowercased). -/
def termScore (term : String) (title snippet : List Char) : Nat :=
  if term.length < 3 then 0
  else (if containsSub term.toList title then 3 else 0)
    + (if containsSub term.toList snippet then 1 else 0)

/-- The relevance score computed inside `rankResults` for one result. -/
def relevanceScore (result : SearchResult) (mainQuery : String) : Nat :=
  let title := (jsToLower result.title).toList
  let snippet := (jsToLower result.snippet).toList
  let base := (queryTerms mainQuery).foldl (fun acc term => acc + termScore term title snippet) 0
  let withContent := base + (if !snippet.isEmpty && snippet.length > 100 then 1 else 0)
  withContent + (if trustedDomains.any (fun domain => strIncludes result.url domain) then 2 else 0)

/-- Stable descending insertion by score (`getD 0` models `|| 0`). -/
def insertByScoreDesc (x : SearchResult) : List SearchResult → List SearchResult
  | [] => [x]
  | y :: ys =>
    if x.relevanceScore.getD 0 ≥ y.relevanceScore.getD 0 then x :: y :: ys
    else y :: insertByScoreDesc x ys

/-- Stable sort, descending by `relevanceScore` (JS `Array.prototype.sort`
is stable; equal scores keep encounter order). -/
def sortByScoreDesc : List SearchResult → List SearchResult
  | [] => []
  | x :: xs => insertByScoreDesc x (sortByScoreDesc xs)

/-- Function `rankResults`: attach a relevance score to every result and sort
descending by it. -/
def rankResults (results : List SearchResult) (mainQuery : String) : List SearchResult :=
  sortByScoreDesc
    (results.map (fun r => { r with relevanceScore := some (relevanceScore r mainQuery) }))

/-! ## Result Cache (`search-cache.ts`) -/

/-- Constant `CACHE_DURATION = 10 * 60 * 1000` (10 minutes, in milliseconds). -/
def CACHE_DURATION : Nat := 10 * 60 * 1000

/-- Constant `MAX_CACHE_SIZE = 50`. -/
def MAX_CACHE_SIZE : Nat := 50

/-- A cache entry: normalized query, response, insertion time. -/
structure CacheEntry where
  query : String
  results : SearchResponse
  timestamp : Nat
deriving DecidableEq, BEq

/-- JS `Map.get`: the value at the first (unique) matching key. -/
def mapLookup (k : String) : List (String × CacheEntry) → Option CacheEntry
  | [] => none
  | (k₁, v₁) :: rest => if k₁ = k then some v₁ else mapLookup k rest

/-- JS `Map.set`: update an existing key in place (insertion order kept),
otherwise append. -/
def mapSet (k : String) (v : CacheEntry) : List (String × CacheEntry) → List (String × CacheEntry)
  | [] => [(k, v)]
  | (k₁, v₁) :: rest => if k₁ = k then (k₁, v) :: rest else (k₁, v₁) :: mapSet k v rest

/-- JS `Map.delete`: remove the entry with the given key. -/
def mapDelete (k : String) : List (String × CacheEntry) → List (String × CacheEntry)
  | [] => []
  | (k₁, v₁) :: rest => if k₁ = k then rest else (k₁, v₁) :: mapDelete k rest

/-- The `SearchCache` class: a `Map` in insertion order. -/
structure SearchCache where
  cache : List (String × CacheEntry)
deriving DecidableEq, BEq

/-- Function `normalizeQuery`: `query.toLowerCase().trim().replace(/\s+/g, " ")`. -/
def normalizeQuery (query : String) : String :=
  jsCollapseWs (jsTrim (jsToLower query))

/-- Predicate `isValid`: `Date.now() - entry.timestamp < CACHE_DURATION` (truncated
subtraction agrees with JS for `now < timestamp`, where both yield valid). -/
def isValid (entry : CacheEntry) (now : Nat) : Bool :=
  now - entry.timestamp < CACHE_DURATION

/-- Method `SearchCache.get`: lazy expiry — an expired entry is deleted and the
lookup reports absent. Returns the response (if any) and the possibly
shrunk cache. -/
def SearchCache.get (c : SearchCache) (query : String) (now : Nat) :
    Option SearchResponse × SearchCache :=
  let key := normalizeQuery query
  match mapLookup key c.cache with
  | none => (none, c)
  | some entry =>
    if isValid entry now then (some entry.results, c)
    else (none, ⟨mapDelete key c.cache⟩)

/-- The eviction phase of `set`: when at capacity, delete the
first-inserted entry — but, as in the source, only when its key is
truthy (`if (firstKey)`), so an empty-string first key disables
eviction. -/
def evictIfFull (c : SearchCache) : SearchCache :=
  if c.cache.length ≥ MAX_CACHE_SIZE then
    match c.cache.head? with
    | some (firstKey, _) => if firstKey ≠ "" then ⟨mapDelete firstKey c.cache⟩ else c
    | none => c
  else c

/-- Method `SearchCache.set`: run the eviction phase, then store under the
normalized key with the current timestamp. -/
def SearchCache.set (c : SearchCache) (query : String) (results : SearchResponse) (now : Nat) :
    SearchCache :=
  let key := normalizeQuery query
  ⟨mapSet key ⟨key, results, now⟩ (evictIfFull c).cache⟩

/-- All stored keys are pairwise distinct (true of every reachable cache
state; JS `Map` keys are unique by construction). -/
def keysNodup (c : SearchCache) : Prop :=
  (c.cache.map Prod.fst).Nodup

/-! ## Research engine data model (`deep-research`, second revision) -/

/-- Enum `ResearchStep.status`. -/
inductive StepStatus where
  | pending
  | searching
  | completed
  | failed
deriving DecidableEq, BEq

/-- Interface `ResearchStep`. -/
structure ResearchStep where
  id : String
  query : String
  status : StepStatus
  results : Option SearchResponse := none
  error : Option String := none
deriving DecidableEq, BEq

/-- Enum `ResearchProgress.status`. -/
inductive RunStatus where
  | planning
  | researching
  | synthesizing
  | completed
  | failed
deriving DecidableEq, BEq

/-- Interface `ResearchProgress` (an `onProgress` snapshot captures the step statuses
at emission time). -/
structure ResearchProgress where
  currentStep : Nat
  totalSteps : Nat
  steps : List ResearchStep
  status : RunStatus
  finalReport : Option String := none
deriving DecidableEq, BEq

/-- The three observable behaviours of the timed provider call
`Promise.race([webSearch(q), timeout(20000)])`. -/
inductive ProviderOutcome where
  | success (results : SearchResponse)
  | failure (msg : String)
  | timeout
deriving DecidableEq, BEq

/-! ## Batched Concurrent Executor -/

/-- Shared tail of the per-step handler once a response is available
(from the cache or the provider): record the results; an empty result
set marks the step failed with an explicit error, otherwise completed. -/
def applyResults (step : ResearchStep) (results : SearchResponse) : ResearchStep :=
  { step with
    results := some results,
    status := if results.results.isEmpty then .failed else .completed,
    error := if results.results.isEmpty then some ("No results found") else step.error }

/-- One step of the executor body: cache lookup first; on a miss, the timed
provider call, whose response (empty or not) is written back to the
cache; a timeout or provider error marks the step failed
(`error.message || "Search failed"`). Returns the updated step, the
updated cache, and whether the provider was called. -/
def execStep (prov : String → ProviderOutcome) (now : Nat) (cache : SearchCache)
    (step : ResearchStep) : ResearchStep × SearchCache × Bool :=
  match cache.get step.query now with
  | (some results, cache₁) => (applyResults step results, cache₁, false)
  | (none, cache₁) =>
    match prov step.query with
    | .success results =>
      (applyResults step results, cache₁.set step.query results now, true)
    | .timeout =>
      ({ step with status := .failed, error := some ("Search timeout") }, cache₁, true)
    | .failure msg =>
      let m := if msg = "" then "Search failed" else msg
      ({ step with status := .failed, error := some m }, cache₁, true)

/-- Loop `batch.forEach(step => step.status = "searching")`. -/
def markSearching (steps : List ResearchStep) : List ResearchStep :=
  steps.map (fun s => { s with status := StepStatus.searching })

/-- Run the steps of one batch (serialized in batch order), emitting a
snapshot after each step. `done` are the finished earlier steps,
`rest` the untouched later steps; snapshots always show the whole
steps array. Returns (snapshots, finished batch, cache, provider
calls). -/
def execBatchSteps (prov : String → ProviderOutcome) (now : Nat) (total : Nat)
    (cache : SearchCache) (done : List ResearchStep) (batch : List ResearchStep)
    (rest : List ResearchStep) :
    List ResearchProgress × List ResearchStep × SearchCache × List String :=
  match batch with
  | [] => ([], [], cache, [])
  | s :: ss =>
    let r₁ := execStep prov now cache s
    let s₁ := r₁.1
    let rec₁ := execBatchSteps prov now total r₁.2.1 (done ++ [s₁]) ss rest
    (⟨done.length + 1, total, done ++ s₁ :: ss ++ rest, .researching, none⟩ :: rec₁.1,
     s₁ :: rec₁.2.1, rec₁.2.2.1,
     (if r₁.2.2 then [s.query] else []) ++ rec₁.2.2.2)

/-- One batch: mark every member searching, emit one snapshot for the
whole batch, then run the members. -/
def execOneBatch (prov : String → ProviderOutcome) (now : Nat) (total : Nat)
    (cache : SearchCache) (done : List ResearchStep) (batch : List ResearchStep)
    (rest : List ResearchStep) :
    List ResearchProgress × List ResearchStep × SearchCache × List String :=
  let sb := markSearching batch
  let r := execBatchSteps prov now total cache done sb rest
  (⟨done.length, total, done ++ sb ++ rest, .researching, none⟩ :: r.1,
   done ++ r.2.1, r.2.2.1, r.2.2.2)

/-- The batch loop (`for i += batchSize`, batch size 3): structural
three-way split of the remaining steps. -/
def execBatches (prov : String → ProviderOutcome) (now : Nat) (total : Nat)
    (cache : SearchCache) (done : List ResearchStep) :
    List ResearchStep →
    List ResearchProgress × List ResearchStep × SearchCache × List String
  | [] => ([], done, cache, [])
  | [a] => execOneBatch prov now total cache done [a] []
  | [a, b] => execOneBatch prov now total cache done [a, b] []
  | a :: b :: c :: rest =>
    let r₁ := execOneBatch prov now total cache done [a, b, c] rest
    let r₂ := execBatches prov now total r₁.2.2.1 r₁.2.1 rest
    (r₁.1 ++ r₂.1, r₂.2.1, r₂.2.2.1, r₁.2.2.2 ++ r₂.2.2.2)

/-! ## Report Synthesizer (`formatResearchReport`) -/

/-- Filter `steps.filter(s => s.status === "completed" && s.results)`. -/
def successfulStepsOf (steps : List ResearchStep) : List ResearchStep :=
  steps.filter (fun s => s.status == StepStatus.completed && s.results.isSome)

/-- Lists `step.results?.results` flattened over the successful steps. -/
def collectResults (steps : List ResearchStep) : List SearchResult :=
  steps.flatMap (fun s => match s.results with | some r => r.results | none => [])

/-- One "Key Findings" entry (`### {rank}. {title}` block). -/
def keyFindingEntry (index : Nat) (result : SearchResult) : String :=
  "### " ++ toString (index + 1) ++ ". " ++ result.title ++ "\n"
    ++ "**Source:** " ++ result.url ++ "\n"
    ++ (match result.relevanceScore with
        | some n => if n ≠ 0 then "**Relevance Score:** " ++ toString n ++ "\n" else ""
        | none => "")
    ++ "\n"
    ++ (if result.snippet ≠ "" then result.snippet ++ "\n" else "")
    ++ "\n---\n\n"

/-- One "Research Breakdown" line. -/
def breakdownEntry (index : Nat) (step : ResearchStep) : String :=
  let resultCount := match step.results with | some r => r.results.length | none => 0
  "**" ++ toString (index + 1) ++ ". " ++ step.query ++ "** - "
    ++ toString resultCount ++ " sources found\n"

/-- One "All Sources" line. -/
def sourceEntry (index : Nat) (result : SearchResult) : String :=
  toString (index + 1) ++ ". [" ++ result.title ++ "](" ++ result.url ++ ")\n"

/-- Function `formatResearchReport` (second revision): title, executive summary,
ranked key findings, per-query breakdown, numbered source list. -/
def formatResearchReport (mainQuery : String) (steps : List ResearchStep)
    (topResults : List SearchResult) : String :=
  let header := "# Deep Research Report: " ++ mainQuery ++ "\n\n"
  let successfulSteps := successfulStepsOf steps
  if successfulSteps.isEmpty then
    header ++ "⚠️ No research data could be gathered.\n"
  else
    let totalSources := successfulSteps.foldl
      (fun sum s => sum + (match s.results with | some r => r.results.length | none => 0)) 0
    header
      ++ "## Executive Summary\n\n"
      ++ "Conducted comprehensive research across " ++ toString successfulSteps.length
      ++ " different research angles. "
      ++ "Analyzed " ++ toString totalSources ++ " sources and identified the "
      ++ toString topResults.length ++ " most relevant findings.\n\n"
      ++ "## Key Findings (Ranked by Relevance)\n\n"
      ++ String.join (topResults.enum.map (fun p => keyFindingEntry p.1 p.2))
      ++ "## Research Breakdown\n\n"
      ++ String.join (successfulSteps.enum.map (fun p => breakdownEntry p.1 p.2))
      ++ "\n"
      ++ "## All Sources (" ++ toString topResults.length ++ ")\n\n"
      ++ String.join (topResults.enum.map (fun p => sourceEntry p.1 p.2))

/-- The fixed run-level failure report. -/
def failReportText : String :=
  "⚠️ Deep research failed: No search results could be gathered. This might be due to network issues or CORS restrictions. Please try again or use the manual Deep Research tool from Settings."

/-! ## Engine entry point (`performDeepResearch`) -/

/-- Observable outcome of one engine run: the resolved value, the ordered
`onProgress` snapshots, the final cache, the queries sent to the
provider, and whether the dedup / rank / synthesis phases ran. -/
structure RunOutput where
  progress : ResearchProgress
  snapshots : List ResearchProgress
  cache : SearchCache
  providerCalls : List String
  dedupExecuted : Bool
  rankExecuted : Bool
  synthExecuted : Bool
deriving DecidableEq, BEq

/-- The run epilogue after all batches: run-level failure when no step
completed, otherwise the synthesizing phase (dedup, rank, top-20,
report) ending completed. -/
def finishRun (mainQuery : String) (total : Nat) (researchedSnaps : List ResearchProgress)
    (finalSteps : List ResearchStep) (cache : SearchCache) (calls : List String) : RunOutput :=
  if (successfulStepsOf finalSteps).isEmpty then
    let pf : ResearchProgress := ⟨total, total, finalSteps, .failed, some failReportText⟩
    ⟨pf, researchedSnaps ++ [pf], cache, calls, false, false, false⟩
  else
    let ps : ResearchProgress := ⟨total, total, finalSteps, .synthesizing, none⟩
    let allResults := collectResults (successfulStepsOf finalSteps)
    let uniqueResults := deduplicateResults allResults
    let rankedResults := rankResults uniqueResults mainQuery
    let report := formatResearchReport mainQuery finalSteps (rankedResults.take 20)
    let pc : ResearchProgress := ⟨total, total, finalSteps, .completed, some report⟩
    ⟨pc, researchedSnaps ++ [ps, pc], cache, calls, true, true, true⟩

/-- The planned steps: `queries.map((query, index) => ...)`, all pending. -/
def planSteps (queries : List String) : List ResearchStep :=
  queries.enum.map (fun p => ⟨"step-" ++ toString p.1, p.2, .pending, none, none⟩)

/-- Function `performDeepResearch`: plan, stream the planning and researching
snapshots, execute the batches, then finish (failure report or
synthesis). Always resolves with a terminal snapshot. -/
def performDeepResearch (prov : String → ProviderOutcome) (now : Nat) (year : Nat)
    (cache₀ : SearchCache) (mainQuery : String) : RunOutput :=
  let queries := generateResearchQueries mainQuery year
  let steps := planSteps queries
  let total := steps.length
  let p₀ : ResearchProgress := ⟨0, total, steps, .planning, none⟩
  let p₁ : ResearchProgress := ⟨0, total, steps, .researching, none⟩
  let r := execBatches prov now total cache₀ [] steps
  finishRun mainQuery total ([p₀, p₁] ++ r.1) r.2.1 r.2.2.1 r.2.2.2

/-! ## Planner lemmas and claims C4, C10 -/

/-- Every planner branch contributes between 3 and 5 template queries. -/
lemma branchQueries_length (q : String) (y : Nat) :
    3 ≤ (branchQueries q y).length ∧ (branchQueries q y).length ≤ 5 := by
  unfold branchQueries
  split_ifs <;> simp

/-- The recency query list has at most one element. -/
lemma recencyQueries_length (q : String) (y : Nat) :
    (recencyQueries q y).length ≤ 1 := by
  unfold recencyQueries
  split_ifs <;> simp

/-- The untruncated query list has between 4 and 7 elements. -/
lemma rawQueries_length (q : String) (y : Nat) :
    4 ≤ (rawQueries q y).length ∧ (rawQueries q y).length ≤ 7 := by
  obtain ⟨h₁, h₂⟩ := branchQueries_length q y
  have h₃ := recencyQueries_length q y
  unfold rawQueries
  simp only [List.length_append, List.length_cons]
  omega

/-- Claim C10 (implicit). For every topic string, `generateResearchQueries`
in fact returns between 4 and 7 queries (1 verbatim topic + 3 to 5
category templates + at most 1 year-suffixed query), so the final
truncation to 8 entries never removes anything. -/
theorem generateResearchQueries_count_4_to_7 (mainQuery : String) (year : Nat) :
    4 ≤ (generateResearchQueries mainQuery year).length ∧
    (generateResearchQueries mainQuery year).length ≤ 7 ∧
    generateResearchQueries mainQuery year = rawQueries mainQuery year := by
  obtain ⟨h₁, h₂⟩ := rawQueries_length mainQuery year
  have htake : generateResearchQueries mainQuery year = rawQueries mainQuery year := by
    unfold generateResearchQueries
    exact List.take_of_length_le (by omega)
  refine ⟨?_, ?_, htake⟩ <;> rw [htake] <;> omega

/-- Claim C4 — counterexample. The claim says the first entry of the plan is
the *trimmed* input topic; on the topic `" rust "` the first entry is
the untrimmed `" rust "`, not its trim `"rust"`. -/
theorem generateResearchQueries_head_not_trimmed :
    (generateResearchQueries " rust " 2025).head? = some (" rust ") ∧
    jsTrim (" rust ") = "rust" ∧ (" rust " : String) ≠ "rust" := by
  decide

/-- Claim C4 — amended. For every topic string, `generateResearchQueries`
returns between 1 and 8 queries, and the first entry is exactly the
input topic verbatim (no trimming is applied). -/
theorem generateResearchQueries_head_verbatim (mainQuery : String) (year : Nat) :
    1 ≤ (generateResearchQueries mainQuery year).length ∧
    (generateResearchQueries mainQuery year).length ≤ 8 ∧
    (generateResearchQueries mainQuery year).head? = some mainQuery := by
  refine ⟨?_, ?_, ?_⟩
  · unfold generateResearchQueries
    obtain ⟨g₁, g₂⟩ := rawQueries_length mainQuery year
    simp [List.length_take]
    omega
  · unfold generateResearchQueries
    simp [List.length_take]
  · unfold generateResearchQueries rawQueries
    simp

/-! ## Ranker claims: C5 -/

/-- Number of query terms of length at least 3 occurring as a substring of
`text`. -/
def countTermMatches (terms : List String) (text : List Char) : Nat :=
  (terms.filter (fun t => decide (3 ≤ t.length) && containsSub t.toList text)).length

/-- The relevance score written as arithmetic over match counts, with the
trust bonus as the code computes it: +2 when the whole URL *string*
contains an allowlist entry as a substring. -/
def amendedRelevanceScore (r : SearchResult) (mainQuery : String) : Nat :=
  3 * countTermMatches (queryTerms mainQuery) (jsToLower r.title).toList
    + countTermMatches (queryTerms mainQuery) (jsToLower r.snippet).toList
    + (if r.snippet ≠ "" ∧ 100 < r.snippet.length then 1 else 0)
    + (if trustedDomains.any (fun d => strIncludes r.url d) then 2 else 0)

/-- Modelled from the spec: the host of a URL — the characters after the
first `"://"` (or from the start if there is none) up to the first
`/`, `:`, `?` or `#`, lowercased. Used only to state the claim's
host-based reading of the trust bonus; the code has no such parser. -/
def afterSchemeAux : List Char → Option (List Char)
  | [] => none
  | c :: rest =>
    if List.isPrefixOf [':', '/', '/'] (c :: rest) then some (rest.drop 2)
    else afterSchemeAux rest

/-- Modelled from the spec: extract the URL's host. -/
def urlHost (url : String) : String :=
  let l := url.toList
  let tail := (afterSchemeAux l).getD l
  String.mk ((tail.takeWhile
    (fun c => !(c == '/') && !(c == ':') && !(c == '?') && !(c == '#'))).map Char.toLower)

/-- Modelled from the spec: a host matches an allowlist entry when the
entry is a leading-dot TLD suffix of the host, or equals the host, or
is a dot-separated suffix of it. -/
def hostMatchesDomain (host domain : String) : Bool :=
  if List.isPrefixOf ['.'] domain.toList then List.isSuffixOf domain.toList host.toList
  else host == domain || List.isSuffixOf ('.' :: domain.toList) host.toList

/-- The claim's reading of the score: identical to the code except that
the +2 trust bonus requires the URL's *host* to match an allowlist
entry. -/
def claimRelevanceScore (r : SearchResult) (mainQuery : String) : Nat :=
  3 * countTermMatches (queryTerms mainQuery) (jsToLower r.title).toList
    + countTermMatches (queryTerms mainQuery) (jsToLower r.snippet).toList
    + (if r.snippet ≠ "" ∧ 100 < r.snippet.length then 1 else 0)
    + (if trustedDomains.any (fun d => hostMatchesDomain (urlHost r.url) d) then 2 else 0)

/-- Lemma: `termScore` split into its two indicator summands. -/
lemma termScore_split (t : String) (title snippet : List Char) :
    termScore t title snippet =
      3 * (if 3 ≤ t.length ∧ containsSub t.toList title = true then 1 else 0)
        + (if 3 ≤ t.length ∧ containsSub t.toList snippet = true then 1 else 0) := by
  unfold termScore
  by_cases h : t.length < 3
  · have h' : ¬ 3 ≤ t.length := by omega
    simp [h, h']
  · have h3 : 3 ≤ t.length := by omega
    simp only [h, if_false]
    by_cases ht : containsSub t.toList title = true <;>
      by_cases hs : containsSub t.toList snippet = true <;>
        simp [h3, ht, hs]

/-- Unfolding `countTermMatches` over a cons cell. -/
lemma countTermMatches_cons (t : String) (ts : List String) (text : List Char) :
    countTermMatches (t :: ts) text =
      (if 3 ≤ t.length ∧ containsSub t.toList text = true then 1 else 0)
        + countTermMatches ts text := by
  unfold countTermMatches
  by_cases hp : 3 ≤ t.length ∧ containsSub t.toList text = true
  · have h2 : containsSub t.data text = true := hp.2
    simp [List.filter_cons, hp.1, h2, Nat.add_comm]
  · simp only [List.filter_cons]
    rw [if_neg, if_neg hp]
    · omega
    · simp only [Bool.and_eq_true, decide_eq_true_eq]
      exact hp

/-- The score accumulation loop equals the arithmetic of match counts. -/
lemma foldl_termScore (title snippet : List Char) :
    ∀ (terms : List String) (acc : Nat),
      terms.foldl (fun a t => a + termScore t title snippet) acc
        = acc + 3 * countTermMatches terms title + countTermMatches terms snippet := by
  intro terms
  induction terms with
  | nil => intro acc; simp [countTermMatches]
  | cons t ts ih =>
    intro acc
    simp only [List.foldl_cons]
    rw [ih, termScore_split, countTermMatches_cons, countTermMatches_cons]
    ring

/-- Unfolding `jsToLower` at the character-list level. -/
lemma jsToLower_toList (s : String) :
    (jsToLower s).toList = s.data.map Char.toLower := rfl

/-- Claim C5 — counterexample. The claim ties the +2 trust bonus to the
URL's *host*; the code tests substring containment over the whole URL
string. A result whose URL is `https://evil.example/wikipedia.org`
(host `evil.example`, allowlisted text only in the path) scores 2 in
the code but 0 under the claim's host-based formula. -/
theorem relevanceScore_trust_bonus_not_host_based :
    relevanceScore ⟨"", "https://evil.example/wikipedia.org", "", none, none⟩ "zzz" = 2 ∧
    claimRelevanceScore ⟨"", "https://evil.example/wikipedia.org", "", none, none⟩ "zzz" = 0 ∧
    urlHost ("https://evil.example/wikipedia.org") = "evil.example" := by
  decide

/-- Claim C5 — amended. The Ranker's relevance score equals: 3 points per
topic token of length at least 3 contained in the lowercased title,
plus 1 point per such token contained in the lowercased snippet, plus
1 point if the snippet is non-empty and longer than 100 characters,
plus 2 points if and only if the URL *string* contains an entry of the
fixed trusted-domain allowlist as a substring (the code performs no
host extraction). -/
theorem relevanceScore_eq_amended (r : SearchResult) (mainQuery : String) :
    relevanceScore r mainQuery = amendedRelevanceScore r mainQuery := by
  simp only [relevanceScore, amendedRelevanceScore]
  rw [foldl_termScore]
  have hcond : ((!(jsToLower r.snippet).toList.isEmpty) &&
      decide ((jsToLower r.snippet).toList.length > 100)) = true
      ↔ (r.snippet ≠ "" ∧ 100 < r.snippet.length) := by
    rw [jsToLower_toList]
    rcases hs : r.snippet with ⟨data⟩
    cases data with
    | nil => simp [String.length]
    | cons c cs => simp [String.length, String.ext_iff]
  have hb : (if ((!(jsToLower r.snippet).toList.isEmpty) &&
        decide ((jsToLower r.snippet).toList.length > 100)) = true then 1 else 0)
      = (if r.snippet ≠ "" ∧ 100 < r.snippet.length then 1 else 0) :=
    if_congr hcond rfl rfl
  rw [hb]
  omega

/-! ## Deduplicator claims: C6 -/

/-- Everything the dedup loop keeps avoids the `seen` keys. -/
lemma dedupAux_not_seen (seen : List String) (l : List SearchResult) :
    ∀ r ∈ dedupAux seen l, normalizeUrl r.url ∉ seen := by
  induction l generalizing seen with
  | nil => simp [dedupAux]
  | cons x rest ih =>
    simp only [dedupAux]
    split_ifs with h
    · exact ih seen
    · intro r hr
      rcases List.mem_cons.mp hr with rfl | hr'
      · intro hmem
        exact h (List.elem_iff.mpr hmem)
      · have := ih (normalizeUrl x.url :: seen) r hr'
        intro hmem
        exact this (List.mem_cons_of_mem _ hmem)

/-- The dedup loop output is a sublist of its input (stable, no
reordering). -/
lemma dedupAux_sublist (seen : List String) (l : List SearchResult) :
    (dedupAux seen l).Sublist l := by
  induction l generalizing seen with
  | nil => simp [dedupAux]
  | cons x rest ih =>
    simp only [dedupAux]
    split_ifs with h
    · exact (ih seen).trans (List.sublist_cons_self x rest)
    · exact (ih _).cons₂ x

/-- The dedup loop output has pairwise distinct normalized URLs. -/
lemma dedupAux_keys_nodup (seen : List String) (l : List SearchResult) :
    ((dedupAux seen l).map (fun r => normalizeUrl r.url)).Nodup := by
  induction l generalizing seen with
  | nil => simp [dedupAux]
  | cons x rest ih =>
    simp only [dedupAux]
    split_ifs with h
    · exact ih seen
    · simp only [List.map_cons, List.nodup_cons]
      refine ⟨?_, ih _⟩
      intro hmem
      obtain ⟨r, hr, hkey⟩ := List.mem_map.mp hmem
      exact dedupAux_not_seen _ _ r hr (hkey ▸ List.mem_cons_self _ _)

/-- Every unseen input key is represented in the dedup loop output. -/
lemma dedupAux_covers (seen : List String) (l : List SearchResult) :
    ∀ r ∈ l, normalizeUrl r.url ∉ seen →
      ∃ r' ∈ dedupAux seen l, normalizeUrl r'.url = normalizeUrl r.url := by
  induction l generalizing seen with
  | nil => simp
  | cons x rest ih =>
    intro r hr hn
    simp only [dedupAux]
    split_ifs with h
    · rcases List.mem_cons.mp hr with rfl | hr'
      · exact absurd (List.elem_iff.mp h) hn
      · exact ih seen r hr' hn
    · rcases List.mem_cons.mp hr with rfl | hr'
      · exact ⟨_, List.mem_cons_self _ _, rfl⟩
      · by_cases hk : normalizeUrl r.url = normalizeUrl x.url
        · exact ⟨_, List.mem_cons_self _ _, hk.symm⟩
        · obtain ⟨r', hr'', hkey⟩ := ih (normalizeUrl x.url :: seen) r hr'
            (by simp [hn, hk])
          exact ⟨r', List.mem_cons_of_mem _ hr'', hkey⟩

/-- A first occurrence (no earlier element shares its key) is kept. -/
lemma dedupAux_keeps_first (seen : List String) (l : List SearchResult) :
    ∀ (i : Nat) (r : SearchResult), l[i]? = some r →
      (∀ (j : Nat), j < i → ∀ (rj : SearchResult), l[j]? = some rj →
        normalizeUrl rj.url ≠ normalizeUrl r.url) →
      normalizeUrl r.url ∉ seen → r ∈ dedupAux seen l := by
  induction l generalizing seen with
  | nil => intro i r h; simp at h
  | cons x rest ih =>
    intro i r hget hfirst hn
    cases i with
    | zero =>
      simp only [List.getElem?_cons_zero, Option.some.injEq] at hget
      subst hget
      simp only [dedupAux]
      split_ifs with h
      · exact absurd (List.elem_iff.mp h) hn
      · exact List.mem_cons_self _ _
    | succ i' =>
      simp only [List.getElem?_cons_succ] at hget
      have hx : normalizeUrl x.url ≠ normalizeUrl r.url :=
        hfirst 0 (by omega) x (by simp)
      simp only [dedupAux]
      split_ifs with h
      · exact ih seen i' r hget
          (fun j hj rj hgj => hfirst (j + 1) (by omega) rj (by simpa using hgj)) hn
      · refine List.mem_cons_of_mem _ (ih (normalizeUrl x.url :: seen) i' r hget
          (fun j hj rj hgj => hfirst (j + 1) (by omega) rj (by simpa using hgj)) ?_)
        simp only [List.mem_cons, not_or]
        exact ⟨fun hc => hx hc.symm, hn⟩

/-- Claim C6. `deduplicateResults` keys each result by its URL with the query
string and fragment stripped and the remainder lowercased, keeps
exactly the first occurrence of each key in encounter order without
reordering, and collapses the two example URLs to a single entry. -/
theorem deduplicateResults_first_occurrence (l : List SearchResult) :
    (deduplicateResults l).Sublist l ∧
    ((deduplicateResults l).map (fun r => normalizeUrl r.url)).Nodup ∧
    (∀ r ∈ l, ∃ r' ∈ deduplicateResults l, normalizeUrl r'.url = normalizeUrl r.url) ∧
    (∀ (i : Nat) (r : SearchResult), l[i]? = some r →
      (∀ (j : Nat), j < i → ∀ (rj : SearchResult), l[j]? = some rj →
        normalizeUrl rj.url ≠ normalizeUrl r.url) →
      r ∈ deduplicateResults l) ∧
    normalizeUrl ("https://x.com/a?ref=1") = "https://x.com/a" ∧
    normalizeUrl ("https://x.com/a#section") = "https://x.com/a" ∧
    deduplicateResults [⟨"t1", "https://x.com/a?ref=1", "s1", none, none⟩,
        ⟨"t2", "https://x.com/a#section", "s2", none, none⟩]
      = [⟨"t1", "https://x.com/a?ref=1", "s1", none, none⟩] := by
  refine ⟨dedupAux_sublist [] l, dedupAux_keys_nodup [] l,
    fun r hr => dedupAux_covers [] l r hr (by simp),
    fun i r hget hfirst => dedupAux_keeps_first [] l i r hget hfirst (by simp),
    by decide, by decide, by decide⟩

/-- Claim C6 — witness: the first-occurrence clause applied at the concrete
two-element example. -/
theorem deduplicateResults_first_occurrence_witness :
    (⟨"t1", "https://x.com/a?ref=1", "s1", none, none⟩ : SearchResult) ∈
      deduplicateResults [⟨"t1", "https://x.com/a?ref=1", "s1", none, none⟩,
        ⟨"t2", "https://x.com/a#section", "s2", none, none⟩] :=
  (deduplicateResults_first_occurrence
      [⟨"t1", "https://x.com/a?ref=1", "s1", none, none⟩,
       ⟨"t2", "https://x.com/a#section", "s2", none, none⟩]).2.2.2.1
    0 ⟨"t1", "https://x.com/a?ref=1", "s1", none, none⟩ (by decide)
    (fun j hj rj hgj => by omega)

/-! ## Cache lemmas and claims C7, C8 -/

/-- Looking up the key just stored finds the new entry. -/
lemma mapLookup_mapSet_self (k : String) (v : CacheEntry)
    (l : List (String × CacheEntry)) : mapLookup k (mapSet k v l) = some v := by
  induction l with
  | nil => simp [mapSet, mapLookup]
  | cons p rest ih =>
    obtain ⟨k₁, v₁⟩ := p
    simp only [mapSet]
    split_ifs with h
    · simp [mapLookup, h]
    · simp [mapLookup, h, ih]

/-- Storing under one key leaves other lookups unchanged. -/
lemma mapLookup_mapSet_ne (k k' : String) (v : CacheEntry)
    (l : List (String × CacheEntry)) (h : k' ≠ k) :
    mapLookup k' (mapSet k v l) = mapLookup k' l := by
  have h' : ¬ (k = k') := fun hc => h hc.symm
  induction l with
  | nil => simp [mapSet, mapLookup, h']
  | cons p rest ih =>
    obtain ⟨k₁, v₁⟩ := p
    simp only [mapSet]
    split_ifs with h₁
    · subst h₁
      simp [mapLookup, h']
    · simp [mapLookup, ih]

/-- A key that is not present looks up to `none`. -/
lemma mapLookup_eq_none_of_not_mem (k : String) (l : List (String × CacheEntry))
    (h : k ∉ l.map Prod.fst) : mapLookup k l = none := by
  induction l with
  | nil => rfl
  | cons p rest ih =>
    obtain ⟨k₁, v₁⟩ := p
    simp only [List.map_cons, List.mem_cons, not_or] at h
    simp only [mapLookup]
    rw [if_neg (fun hc => h.1 hc.symm), ih h.2]

/-- Deleting a key removes it for good when the stored keys are distinct. -/
lemma mapLookup_mapDelete_self (k : String) (l : List (String × CacheEntry))
    (h : (l.map Prod.fst).Nodup) : mapLookup k (mapDelete k l) = none := by
  induction l with
  | nil => rfl
  | cons p rest ih =>
    obtain ⟨k₁, v₁⟩ := p
    simp only [List.map_cons, List.nodup_cons] at h
    simp only [mapDelete]
    split_ifs with h₁
    · subst h₁
      exact mapLookup_eq_none_of_not_mem _ _ h.1
    · simp only [mapLookup]
      rw [if_neg h₁]
      exact ih h.2

/-- Lemma: `mapSet` either overwrites in place (key present, keys unchanged) or
appends the new key at the end (key absent). -/
lemma mapSet_keys (k : String) (v : CacheEntry) (l : List (String × CacheEntry)) :
    (k ∈ l.map Prod.fst ∧ (mapSet k v l).map Prod.fst = l.map Prod.fst) ∨
    (k ∉ l.map Prod.fst ∧ (mapSet k v l).map Prod.fst = l.map Prod.fst ++ [k]) := by
  induction l with
  | nil => right; simp [mapSet]
  | cons p rest ih =>
    obtain ⟨k₁, v₁⟩ := p
    simp only [mapSet]
    split_ifs with h
    · left
      subst h
      simp
    · rcases ih with ⟨hm, he⟩ | ⟨hm, he⟩
      · left
        simp [hm, he]
      · right
        refine ⟨?_, by simp [he]⟩
        simp only [List.map_cons, List.mem_cons, not_or]
        exact ⟨fun hc => h hc.symm, hm⟩

/-- Lemma: `mapSet` grows the list by at most one entry. -/
lemma mapSet_length_le (k : String) (v : CacheEntry) (l : List (String × CacheEntry)) :
    (mapSet k v l).length ≤ l.length + 1 := by
  rcases mapSet_keys k v l with ⟨_, h⟩ | ⟨_, h⟩ <;>
    have h' := congrArg List.length h <;> simp only [List.length_map] at h' <;> simp_all

/-- Lemma: `mapSet` preserves distinctness of keys. -/
lemma mapSet_nodup (k : String) (v : CacheEntry) (l : List (String × CacheEntry))
    (h : (l.map Prod.fst).Nodup) : ((mapSet k v l).map Prod.fst).Nodup := by
  rcases mapSet_keys k v l with ⟨_, he⟩ | ⟨hm, he⟩
  · rwa [he]
  · rw [he]
    simp [List.nodup_append, h, hm]

/-- Lemma: `mapDelete` yields a sublist. -/
lemma mapDelete_sublist (k : String) (l : List (String × CacheEntry)) :
    (mapDelete k l).Sublist l := by
  induction l with
  | nil => simp [mapDelete]
  | cons p rest ih =>
    obtain ⟨k₁, v₁⟩ := p
    simp only [mapDelete]
    split_ifs with h
    · exact List.sublist_cons_self _ _
    · exact ih.cons₂ _

/-- Deleting the head key drops exactly the head entry. -/
lemma mapDelete_head (k : String) (v : CacheEntry) (l : List (String × CacheEntry)) :
    mapDelete k ((k, v) :: l) = l := by
  simp [mapDelete]

/-- The eviction phase preserves distinctness of keys. -/
lemma evictIfFull_nodup (c : SearchCache) (h : keysNodup c) : keysNodup (evictIfFull c) := by
  unfold evictIfFull keysNodup
  split_ifs with h₁
  · rcases hh : c.cache.head? with _ | ⟨k₀, v₀⟩
    · exact h
    · simp only
      split_ifs with h₂
      · exact ((mapDelete_sublist k₀ c.cache).map Prod.fst).nodup h
      · exact h
  · exact h

/-- Lemma: `set` preserves distinctness of keys. -/
lemma searchCacheSet_nodup (c : SearchCache) (q : String) (r : SearchResponse) (now : Nat)
    (h : keysNodup c) : keysNodup (c.set q r now) :=
  mapSet_nodup _ _ _ (evictIfFull_nodup c h)

/-- Claim C7. After `set(q, r)`, an immediate `get` under any query with the
same normalization (lowercase, trim, collapse whitespace) returns `r`;
once the 10-minute TTL has elapsed since insertion, `get` returns
absent and removes the entry. -/
theorem searchCache_set_get_ttl (c : SearchCache) (q q' : String) (r : SearchResponse)
    (now later : Nat) (hnod : keysNodup c) (hq : normalizeQuery q' = normalizeQuery q) :
    ((c.set q r now).get q' now).1 = some r ∧
    (now + CACHE_DURATION ≤ later →
      ((c.set q r now).get q later).1 = none ∧
      mapLookup (normalizeQuery q) (((c.set q r now).get q later).2).cache = none) := by
  have hset : (c.set q r now).cache =
      mapSet (normalizeQuery q) ⟨normalizeQuery q, r, now⟩ (evictIfFull c).cache := rfl
  have hlook : mapLookup (normalizeQuery q) (c.set q r now).cache =
      some ⟨normalizeQuery q, r, now⟩ := by
    rw [hset]
    exact mapLookup_mapSet_self _ _ _
  constructor
  · simp only [SearchCache.get, hq, hlook]
    have hv : isValid ⟨normalizeQuery q, r, now⟩ now = true := by
      simp [isValid, CACHE_DURATION]
    simp [hv]
  · intro hl
    have hv : isValid ⟨normalizeQuery q, r, now⟩ later = false := by
      unfold CACHE_DURATION at hl
      simp only [isValid, CACHE_DURATION, decide_eq_false_iff_not, not_lt]
      omega
    have hg : (c.set q r now).get q later =
        (none, ⟨mapDelete (normalizeQuery q) (c.set q r now).cache⟩) := by
      simp [SearchCache.get, hlook, hv]
    rw [hg]
    exact ⟨rfl, mapLookup_mapDelete_self _ _ (searchCacheSet_nodup c q r now hnod)⟩

/-- Claim C7 — witness at a concrete cache, query pair and instants. -/
theorem searchCache_set_get_ttl_witness :
    (((SearchCache.mk []).set ("A  b") ⟨[], "A  b", "t"⟩ 0).get (" a b") 0).1 =
      some ⟨[], "A  b", "t"⟩ ∧
    (((SearchCache.mk []).set ("A  b") ⟨[], "A  b", "t"⟩ 0).get ("A  b") 600000).1 = none := by
  have h := searchCache_set_get_ttl (SearchCache.mk []) ("A  b") (" a b") ⟨[], "A  b", "t"⟩ 0 600000
    (by simp [keysNodup]) (by decide)
  exact ⟨h.1, (h.2 (by decide)).1⟩

/-- A fixed response used by the capacity counterexample. -/
def cacheProbeResponse : SearchResponse := ⟨[], "probe", "ts"⟩

/-- A cache filled to capacity whose *oldest* entry has the empty
normalized key (stored from an all-whitespace query): 1 + 49 = 50
entries. -/
def fullCacheWithEmptyKey : SearchCache :=
  (List.range 49).foldl (fun c i => c.set ("k" ++ toString i) cacheProbeResponse 0)
    ((SearchCache.mk []).set (" ") cacheProbeResponse 0)

set_option maxRecDepth 20000 in
/-- Claim C8 — counterexample. The claim says the cache never holds more
than 50 entries. When the oldest entry's key is the empty string
(e.g. from an all-whitespace query), the source's `if (firstKey)`
truthiness test skips eviction, and a further `set` grows the cache to
51 entries. -/
theorem searchCache_exceeds_capacity :
    fullCacheWithEmptyKey.cache.length = 50 ∧
    fullCacheWithEmptyKey.cache.head? = some ("", ⟨"", cacheProbeResponse, 0⟩) ∧
    (fullCacheWithEmptyKey.set ("extra") cacheProbeResponse 0).cache.length = 51 := by
  decide

/-- Claim C8 — amended. Provided no stored key is the empty string, the
cache never exceeds 50 entries; a `set` below capacity evicts nothing;
and whenever a `set` finds the cache already at 50 entries it evicts
the single oldest-inserted entry (insertion order; reads never
reorder) before storing — even when the `set` merely overwrites an
existing key and would not exceed capacity. -/
theorem searchCache_capacity_amended (c : SearchCache) (q : String) (r : SearchResponse)
    (now : Nat) (hkeys : ∀ p ∈ c.cache, p.1 ≠ "") (hlen : c.cache.length ≤ MAX_CACHE_SIZE) :
    (c.set q r now).cache.length ≤ MAX_CACHE_SIZE ∧
    (c.cache.length < MAX_CACHE_SIZE →
      ∀ k, k ≠ normalizeQuery q → mapLookup k (c.set q r now).cache = mapLookup k c.cache) ∧
    (∀ k₀ e₀, c.cache.length = MAX_CACHE_SIZE → c.cache.head? = some (k₀, e₀) →
      k₀ ≠ normalizeQuery q → keysNodup c → mapLookup k₀ (c.set q r now).cache = none) := by
  refine ⟨?_, ?_, ?_⟩
  · by_cases hlt : c.cache.length < MAX_CACHE_SIZE
    · have he : evictIfFull c = c := by
        unfold evictIfFull
        rw [if_neg (by omega)]
      show (mapSet (normalizeQuery q) ⟨normalizeQuery q, r, now⟩ (evictIfFull c).cache).length
        ≤ MAX_CACHE_SIZE
      rw [he]
      calc (mapSet (normalizeQuery q) ⟨normalizeQuery q, r, now⟩ c.cache).length
          ≤ c.cache.length + 1 := mapSet_length_le _ _ _
        _ ≤ MAX_CACHE_SIZE := by omega
    · have heq : c.cache.length = MAX_CACHE_SIZE := by omega
      rcases hc : c.cache with _ | ⟨⟨k₀, e₀⟩, rest⟩
      · rw [hc] at heq
        simp [MAX_CACHE_SIZE] at heq
      · have hk₀ : k₀ ≠ "" := hkeys (k₀, e₀) (by rw [hc]; exact List.mem_cons_self _ _)
        have he : evictIfFull c = ⟨rest⟩ := by
          unfold evictIfFull
          rw [if_pos (by omega), hc]
          simp only [List.head?_cons]
          rw [if_pos hk₀, mapDelete_head]
        show (mapSet (normalizeQuery q) ⟨normalizeQuery q, r, now⟩ (evictIfFull c).cache).length
          ≤ MAX_CACHE_SIZE
        rw [he]
        have hr : rest.length + 1 = MAX_CACHE_SIZE := by
          rw [hc] at heq
          simpa using heq
        calc (mapSet (normalizeQuery q) ⟨normalizeQuery q, r, now⟩ rest).length
            ≤ rest.length + 1 := mapSet_length_le _ _ _
          _ = MAX_CACHE_SIZE := hr
  · intro hlt k hk
    have he : evictIfFull c = c := by
      unfold evictIfFull
      rw [if_neg (by omega)]
    show mapLookup k (mapSet (normalizeQuery q) ⟨normalizeQuery q, r, now⟩ (evictIfFull c).cache)
      = mapLookup k c.cache
    rw [he]
    exact mapLookup_mapSet_ne _ _ _ _ hk
  · intro k₀ e₀ heq hhead hne hnod
    rcases hc : c.cache with _ | ⟨⟨k₁, e₁⟩, rest⟩
    · rw [hc] at hhead
      simp at hhead
    · rw [hc] at hhead
      simp only [List.head?_cons, Option.some.injEq, Prod.mk.injEq] at hhead
      obtain ⟨rfl, rfl⟩ := hhead
      have hk₁ : k₁ ≠ "" := hkeys (k₁, e₁) (by rw [hc]; exact List.mem_cons_self _ _)
      have he : evictIfFull c = ⟨rest⟩ := by
        unfold evictIfFull
        rw [if_pos (by omega), hc]
        simp only [List.head?_cons]
        rw [if_pos hk₁, mapDelete_head]
      show mapLookup k₁ (mapSet (normalizeQuery q) ⟨normalizeQuery q, r, now⟩ (evictIfFull c).cache)
        = none
      rw [he, mapLookup_mapSet_ne _ _ _ _ hne]
      apply mapLookup_eq_none_of_not_mem
      have hthis := hnod
      unfold keysNodup at hthis
      rw [hc] at hthis
      simp only [List.map_cons, List.nodup_cons] at hthis
      exact hthis.1

/-- Claim C8 — witness: the amended bound and no-eviction clause at a small
concrete cache. -/
theorem searchCache_capacity_amended_witness :
    ((SearchCache.mk [("a", ⟨"a", cacheProbeResponse, 0⟩)]).set ("b") cacheProbeResponse 0).cache.length
      ≤ MAX_CACHE_SIZE ∧
    mapLookup ("a")
      ((SearchCache.mk [("a", ⟨"a", cacheProbeResponse, 0⟩)]).set ("b") cacheProbeResponse 0).cache
      = mapLookup ("a") (SearchCache.mk [("a", ⟨"a", cacheProbeResponse, 0⟩)]).cache := by
  have h := searchCache_capacity_amended (SearchCache.mk [("a", ⟨"a", cacheProbeResponse, 0⟩)])
    "b" cacheProbeResponse 0 (by rintro p hp; rcases List.mem_singleton.mp hp with rfl; simp)
    (by decide)
  exact ⟨h.1, h.2.1 (by decide) "a" (by decide)⟩

/-! ## Step-status order and executor invariants -/

/-- The forward order on step statuses: `pending → searching →
{completed | failed}`; terminal statuses never change. -/
def statusForward : StepStatus → StepStatus → Prop
  | .pending, _ => True
  | .searching, s => s ≠ .pending
  | .completed, s => s = .completed
  | .failed, s => s = .failed

/-- Forward order lifted to steps. -/
def stepForward (a b : ResearchStep) : Prop := statusForward a.status b.status

/-- Forward order lifted pointwise to step arrays. -/
def stepsForward (xs ys : List ResearchStep) : Prop := List.Forall₂ stepForward xs ys

/-- Forward order on progress snapshots: each step's status only moves
forward. -/
def progForward (p q : ResearchProgress) : Prop := stepsForward p.steps q.steps

lemma statusForward_refl (s : StepStatus) : statusForward s s := by
  cases s <;> simp [statusForward]

lemma stepForward_refl (s : ResearchStep) : stepForward s s := statusForward_refl _

lemma stepsForward_refl (l : List ResearchStep) : stepsForward l l :=
  List.forall₂_same.mpr (fun x _ => stepForward_refl x)

lemma stepsForward_append {a b c d : List ResearchStep} (h₁ : stepsForward a b)
    (h₂ : stepsForward c d) : stepsForward (a ++ c) (b ++ d) := by
  induction h₁ with
  | nil => exact h₂
  | cons h _ ih => exact List.Forall₂.cons h ih

/-- The executor's per-step handler always lands on a terminal status. -/
lemma execStep_status_terminal (prov : String → ProviderOutcome) (now : Nat)
    (c : SearchCache) (s : ResearchStep) :
    (execStep prov now c s).1.status = .completed ∨
    (execStep prov now c s).1.status = .failed := by
  unfold execStep
  rcases hg : c.get s.query now with ⟨o, c₁⟩
  cases o with
  | some r =>
    simp only [applyResults]
    by_cases hr : r.results.isEmpty <;> simp [hr]
  | none =>
    cases hp : prov s.query with
    | success r =>
      simp only [applyResults]
      by_cases hr : r.results.isEmpty <;> simp [hr]
    | failure msg => simp
    | timeout => simp

/-- A searching step only moves forward under the per-step handler. -/
lemma execStep_forward (prov : String → ProviderOutcome) (now : Nat)
    (c : SearchCache) (s : ResearchStep) (h : s.status = .searching) :
    stepForward s (execStep prov now c s).1 := by
  unfold stepForward
  rw [h]
  rcases execStep_status_terminal prov now c s with h' | h' <;> rw [h'] <;>
    simp [statusForward]

/-- Marking a pending batch as searching moves every member forward. -/
lemma markSearching_forward (l : List ResearchStep) (h : ∀ x ∈ l, x.status = .pending) :
    stepsForward l (markSearching l) := by
  induction l with
  | nil => exact List.Forall₂.nil
  | cons x xs ih =>
    refine List.Forall₂.cons ?_ (ih (fun y hy => h y (List.mem_cons_of_mem _ hy)))
    show statusForward x.status StepStatus.searching
    rw [h x (List.mem_cons_self _ _)]
    trivial

/-- Every member of a marked batch is searching. -/
lemma markSearching_status (l : List ResearchStep) :
    ∀ x ∈ markSearching l, x.status = .searching := by
  intro x hx
  obtain ⟨y, _, rfl⟩ := List.mem_map.mp hx
  rfl

/-- Full specification of one serialized batch run: the batch only moves
forward, ends terminal, every emitted snapshot moves forward from the
previous one, and the last emitted snapshot shows the finished batch. -/
lemma execBatchSteps_spec (prov : String → ProviderOutcome) (now total : Nat)
    (rest : List ResearchStep) :
    ∀ (batch done : List ResearchStep) (cache : SearchCache),
      (∀ x ∈ batch, x.status = .searching) →
      stepsForward batch (execBatchSteps prov now total cache done batch rest).2.1 ∧
      (∀ x ∈ (execBatchSteps prov now total cache done batch rest).2.1,
        x.status = .completed ∨ x.status = .failed) ∧
      List.Chain' stepsForward ((done ++ batch ++ rest) ::
        (execBatchSteps prov now total cache done batch rest).1.map (fun p => p.steps)) ∧
      ((done ++ batch ++ rest) ::
          (execBatchSteps prov now total cache done batch rest).1.map (fun p => p.steps)).getLast?
        = some (done ++ (execBatchSteps prov now total cache done batch rest).2.1 ++ rest) := by
  intro batch
  induction batch with
  | nil =>
    intro done cache hb
    refine ⟨List.Forall₂.nil, by simp [execBatchSteps], ?_, ?_⟩
    · simp [execBatchSteps]
    · simp [execBatchSteps]
  | cons s ss ih =>
    intro done cache hb
    obtain ⟨ih₁, ih₂, ih₃, ih₄⟩ := ih (done ++ [(execStep prov now cache s).1])
      (execStep prov now cache s).2.1
      (fun x hx => hb x (List.mem_cons_of_mem _ hx))
    have hfwd : stepForward s (execStep prov now cache s).1 :=
      execStep_forward prov now cache s (hb s (List.mem_cons_self _ _))
    refine ⟨?_, ?_, ?_, ?_⟩
    · exact List.Forall₂.cons hfwd ih₁
    · intro x hx
      simp only [execBatchSteps] at hx
      rcases List.mem_cons.mp hx with rfl | hx'
      · exact execStep_status_terminal prov now cache s
      · exact ih₂ x hx'
    · simp only [execBatchSteps, List.map_cons]
      rw [List.chain'_cons']
      constructor
      · intro y hy
        simp only [List.head?_cons, Option.mem_def, Option.some.injEq] at hy
        subst hy
        have : stepsForward ((done ++ (s :: ss)) ++ rest)
            ((done ++ ((execStep prov now cache s).1 :: ss)) ++ rest) :=
          stepsForward_append
            (stepsForward_append (stepsForward_refl done)
              (List.Forall₂.cons hfwd (stepsForward_refl ss)))
            (stepsForward_refl rest)
        simpa [List.append_assoc] using this
      · have h3 := ih₃
        have heq : (done ++ [(execStep prov now cache s).1]) ++ ss ++ rest
            = done ++ (execStep prov now cache s).1 :: ss ++ rest := by
          simp
        rw [heq] at h3
        exact h3
    · simp only [execBatchSteps, List.map_cons, List.getLast?_cons_cons]
      have h4 := ih₄
      have heq : (done ++ [(execStep prov now cache s).1]) ++ ss ++ rest
          = done ++ (execStep prov now cache s).1 :: ss ++ rest := by
        simp
      have heq₂ : (done ++ [(execStep prov now cache s).1])
            ++ (execBatchSteps prov now total (execStep prov now cache s).2.1
              (done ++ [(execStep prov now cache s).1]) ss rest).2.1 ++ rest
          = done ++ ((execStep prov now cache s).1 ::
              (execBatchSteps prov now total (execStep prov now cache s).2.1
                (done ++ [(execStep prov now cache s).1]) ss rest).2.1) ++ rest := by
        simp
      rw [heq, heq₂] at h4
      exact h4

/-- Specification of one whole batch (mark searching, then run): the
finished steps extend `done`, are terminal, the snapshots move forward
from the pre-batch state, and the last snapshot shows the finished
batch. -/
lemma execOneBatch_spec (prov : String → ProviderOutcome) (now total : Nat)
    (cache : SearchCache) (done batch rest : List ResearchStep)
    (hb : ∀ x ∈ batch, x.status = .pending) :
    ∃ batch₁,
      (execOneBatch prov now total cache done batch rest).2.1 = done ++ batch₁ ∧
      batch₁.length = batch.length ∧
      (∀ x ∈ batch₁, x.status = .completed ∨ x.status = .failed) ∧
      List.Chain' stepsForward ((done ++ batch ++ rest) ::
        (execOneBatch prov now total cache done batch rest).1.map (fun p => p.steps)) ∧
      ((done ++ batch ++ rest) ::
          (execOneBatch prov now total cache done batch rest).1.map (fun p => p.steps)).getLast?
        = some (done ++ batch₁ ++ rest) := by
  obtain ⟨h₁, h₂, h₃, h₄⟩ := execBatchSteps_spec prov now total rest (markSearching batch)
    done cache (markSearching_status batch)
  refine ⟨(execBatchSteps prov now total cache done (markSearching batch) rest).2.1,
    rfl, ?_, h₂, ?_, ?_⟩
  · have hl := h₁.length_eq
    have hm : (markSearching batch).length = batch.length := by
      simp [markSearching]
    omega
  · simp only [execOneBatch, List.map_cons]
    rw [List.chain'_cons']
    constructor
    · intro y hy
      simp only [List.head?_cons, Option.mem_def, Option.some.injEq] at hy
      subst hy
      exact stepsForward_append
        (stepsForward_append (stepsForward_refl done) (markSearching_forward batch hb))
        (stepsForward_refl rest)
    · exact h₃
  · simp only [execOneBatch, List.map_cons, List.getLast?_cons_cons]
    exact h₄

/-- Specification of the batch loop: all steps end terminal (the run never
aborts early), the final array extends `done` by exactly one terminal
entry per planned step, every snapshot moves forward from the previous
one, and the last snapshot shows the final array. -/
lemma execBatches_spec (prov : String → ProviderOutcome) (now total : Nat) :
    ∀ (cache : SearchCache) (done rest : List ResearchStep),
      (∀ x ∈ rest, x.status = .pending) →
      (∃ procd, (execBatches prov now total cache done rest).2.1 = done ++ procd ∧
        procd.length = rest.length ∧
        (∀ x ∈ procd, x.status = .completed ∨ x.status = .failed)) ∧
      List.Chain' stepsForward ((done ++ rest) ::
        (execBatches prov now total cache done rest).1.map (fun p => p.steps)) ∧
      ((done ++ rest) ::
          (execBatches prov now total cache done rest).1.map (fun p => p.steps)).getLast?
        = some (execBatches prov now total cache done rest).2.1 := by
  intro cache done rest
  induction cache, done, rest using execBatches.induct prov now total with
  | case1 cache done =>
    intro _
    refine ⟨⟨[], by simp [execBatches], rfl, by simp⟩, ?_, ?_⟩
    · simp [execBatches]
    · simp [execBatches]
  | case2 cache done a =>
    intro h
    obtain ⟨b₁, hb₁, hlen, hterm, hchain, hlast⟩ :=
      execOneBatch_spec prov now total cache done [a] [] h
    refine ⟨⟨b₁, hb₁, by simpa using hlen, hterm⟩, ?_, ?_⟩
    · show List.Chain' stepsForward ((done ++ [a]) ::
        (execOneBatch prov now total cache done [a] []).1.map (fun p => p.steps))
      simpa using hchain
    · show ((done ++ [a]) ::
          (execOneBatch prov now total cache done [a] []).1.map (fun p => p.steps)).getLast?
        = some (execOneBatch prov now total cache done [a] []).2.1
      rw [hb₁]
      simpa using hlast
  | case3 cache done a b =>
    intro h
    obtain ⟨b₁, hb₁, hlen, hterm, hchain, hlast⟩ :=
      execOneBatch_spec prov now total cache done [a, b] [] h
    refine ⟨⟨b₁, hb₁, by simpa using hlen, hterm⟩, ?_, ?_⟩
    · show List.Chain' stepsForward ((done ++ [a, b]) ::
        (execOneBatch prov now total cache done [a, b] []).1.map (fun p => p.steps))
      simpa using hchain
    · show ((done ++ [a, b]) ::
          (execOneBatch prov now total cache done [a, b] []).1.map (fun p => p.steps)).getLast?
        = some (execOneBatch prov now total cache done [a, b] []).2.1
      rw [hb₁]
      simpa using hlast
  | case4 cache done a b c rest r₁ ih =>
    intro h
    have hbatch : ∀ x ∈ [a, b, c], x.status = .pending := by
      intro x hx
      apply h x
      simp only [List.mem_cons] at hx ⊢
      tauto
    have hrest : ∀ x ∈ rest, x.status = .pending := by
      intro x hx
      exact h x (by simp [hx])
    obtain ⟨b₁, hb₁, hlen₁, hterm₁, hchain₁, hlast₁⟩ :=
      execOneBatch_spec prov now total cache done [a, b, c] rest hbatch
    obtain ⟨⟨procd₂, hp₂, hlen₂, hterm₂⟩, hchain₂, hlast₂⟩ := ih hrest
    refine ⟨⟨b₁ ++ procd₂, ?_, ?_, ?_⟩, ?_, ?_⟩
    · show (execBatches prov now total r₁.2.2.1 r₁.2.1 rest).2.1 = done ++ (b₁ ++ procd₂)
      rw [hp₂, hb₁]
      simp
    · simp only [List.length_append, List.length_cons, List.length_nil]
      simp only [List.length_cons, List.length_nil] at hlen₁
      omega
    · intro x hx
      rcases List.mem_append.mp hx with hx | hx
      · exact hterm₁ x hx
      · exact hterm₂ x hx
    · show List.Chain' stepsForward ((done ++ (a :: b :: c :: rest)) ::
        ((execOneBatch prov now total cache done [a, b, c] rest).1
          ++ (execBatches prov now total r₁.2.2.1 r₁.2.1 rest).1).map (fun p => p.steps))
      rw [List.map_append]
      have hshape : (done ++ (a :: b :: c :: rest)) ::
          ((execOneBatch prov now total cache done [a, b, c] rest).1.map (fun p => p.steps)
            ++ (execBatches prov now total r₁.2.2.1 r₁.2.1 rest).1.map (fun p => p.steps))
          = ((done ++ (a :: b :: c :: rest)) ::
              (execOneBatch prov now total cache done [a, b, c] rest).1.map (fun p => p.steps))
            ++ (execBatches prov now total r₁.2.2.1 r₁.2.1 rest).1.map (fun p => p.steps) := by
        simp
      rw [hshape, List.chain'_append]
      refine ⟨?_, ?_, ?_⟩
      · simpa using hchain₁
      · rw [List.chain'_cons'] at hchain₂
        exact hchain₂.2
      · intro x hx y hy
        have hx' : x = done ++ b₁ ++ rest := by
          have := hlast₁
          simp only [List.append_assoc] at this hx ⊢
          rw [show done ++ ([a, b, c] ++ rest) = done ++ (a :: b :: c :: rest) by simp] at this
          rw [this] at hx
          simpa [List.append_assoc] using (Option.mem_def.mp hx).symm
        subst hx'
        rw [List.chain'_cons'] at hchain₂
        have := hchain₂.1 y hy
        have hshape₂ : r₁.2.1 ++ rest = done ++ b₁ ++ rest := by
          show (execOneBatch prov now total cache done [a, b, c] rest).2.1 ++ rest
            = done ++ b₁ ++ rest
          rw [hb₁]
        rw [hshape₂] at this
        exact this
    · show ((done ++ (a :: b :: c :: rest)) ::
          ((execOneBatch prov now total cache done [a, b, c] rest).1
            ++ (execBatches prov now total r₁.2.2.1 r₁.2.1 rest).1).map (fun p => p.steps)).getLast?
        = some (execBatches prov now total r₁.2.2.1 r₁.2.1 rest).2.1
      rw [List.map_append]
      rcases hm : (execBatches prov now total r₁.2.2.1 r₁.2.1 rest).1.map (fun p => p.steps)
        with _ | ⟨m, ms⟩
      · rw [hm]
        simp only [List.append_nil]
        rw [hm] at hlast₂
        simp only [List.getLast?_singleton] at hlast₂
        have hfin : (execBatches prov now total r₁.2.2.1 r₁.2.1 rest).2.1 = r₁.2.1 ++ rest := by
          simpa using hlast₂.symm
        rw [hfin]
        have hshape₂ : r₁.2.1 ++ rest = done ++ b₁ ++ rest := by
          show (execOneBatch prov now total cache done [a, b, c] rest).2.1 ++ rest
            = done ++ b₁ ++ rest
          rw [hb₁]
        rw [hshape₂]
        have := hlast₁
        rw [show done ++ [a, b, c] ++ rest = done ++ (a :: b :: c :: rest) by simp] at this
        exact this
      · rw [hm]
        have hne : (m :: ms) ≠ [] := by simp
        have hstep : ((done ++ (a :: b :: c :: rest)) ::
            ((execOneBatch prov now total cache done [a, b, c] rest).1.map (fun p => p.steps)
              ++ (m :: ms))).getLast? = (m :: ms).getLast? := by
          rw [← List.cons_append]
          exact List.getLast?_append_of_ne_nil _ hne
        rw [hstep]
        rw [hm] at hlast₂
        rw [List.getLast?_cons_cons] at hlast₂
        exact hlast₂

/-- Planned steps all start pending. -/
lemma planSteps_pending (qs : List String) : ∀ x ∈ planSteps qs, x.status = .pending := by
  intro x hx
  obtain ⟨p, _, rfl⟩ := List.mem_map.mp hx
  rfl

/-- Assembling the full snapshot chain of a run: two planning-phase
snapshots over the initial steps, the executor trace, then terminal
snapshots over the final steps. -/
lemma chain_snapshots (steps₀ final : List ResearchStep) (tr tail : List ResearchProgress)
    (p₀ p₁ : ResearchProgress)
    (hchain : List.Chain' stepsForward (steps₀ :: tr.map (fun p => p.steps)))
    (hlast : (steps₀ :: tr.map (fun p => p.steps)).getLast? = some final)
    (htail : ∀ p ∈ tail, p.steps = final)
    (h₀ : p₀.steps = steps₀) (h₁ : p₁.steps = steps₀) :
    List.Chain' progForward ((p₀ :: p₁ :: tr) ++ tail) := by
  have hmap : ((p₀ :: p₁ :: tr) ++ tail).map (fun p => p.steps)
      = (steps₀ :: steps₀ :: tr.map (fun p => p.steps)) ++ tail.map (fun p => p.steps) := by
    simp [h₀, h₁]
  have hgoal : List.Chain' (fun a b => stepsForward a.steps b.steps) ((p₀ :: p₁ :: tr) ++ tail) := by
    apply (@List.chain'_map (List ResearchStep) ResearchProgress stepsForward
      (fun p => p.steps) _).mp
    rw [hmap, List.chain'_append]
    refine ⟨?_, ?_, ?_⟩
    · rw [List.chain'_cons']
      refine ⟨?_, hchain⟩
      intro y hy
      simp only [List.head?_cons, Option.mem_def, Option.some.injEq] at hy
      subst hy
      exact stepsForward_refl _
    · clear hmap hlast hchain
      induction tail with
      | nil => simp
      | cons t ts ih =>
        simp only [List.map_cons]
        rw [List.chain'_cons']
        refine ⟨?_, ih (fun p hp => htail p (List.mem_cons_of_mem _ hp))⟩
        intro y hy
        rcases ts with _ | ⟨t₂, ts'⟩
        · simp at hy
        · simp only [List.map_cons, List.head?_cons, Option.mem_def, Option.some.injEq] at hy
          subst hy
          rw [htail t (List.mem_cons_self _ _), htail t₂ (List.mem_cons_of_mem _ (List.mem_cons_self _ _))]
          exact stepsForward_refl _
    · intro x hx y hy
      rw [List.getLast?_cons_cons, hlast] at hx
      simp only [Option.mem_def, Option.some.injEq] at hx
      subst hx
      rcases tail with _ | ⟨t, ts⟩
      · simp at hy
      · simp only [List.map_cons, List.head?_cons, Option.mem_def, Option.some.injEq] at hy
        subst hy
        rw [htail t (List.mem_cons_self _ _)]
        exact stepsForward_refl _
  exact hgoal

/-- Claim C9. Within a single `performDeepResearch` run, every step status
only moves forward along `pending → searching → {completed | failed}`:
between any two consecutive `onProgress` snapshots no step regresses —
in particular no step leaves `completed` or `failed` — so no snapshot
ever shows a regression. -/
theorem performDeepResearch_status_monotonic (prov : String → ProviderOutcome)
    (now year : Nat) (cache₀ : SearchCache) (mainQuery : String) :
    List.Chain' progForward (performDeepResearch prov now year cache₀ mainQuery).snapshots := by
  obtain ⟨_, hchain, hlast⟩ := execBatches_spec prov now
    (planSteps (generateResearchQueries mainQuery year)).length cache₀ []
    (planSteps (generateResearchQueries mainQuery year))
    (planSteps_pending _)
  simp only [List.nil_append] at hchain hlast
  simp only [performDeepResearch, finishRun]
  split_ifs with hsucc
  · exact chain_snapshots _ _ _ _ _ _ hchain hlast
      (by
        intro p hp
        simp only [List.mem_singleton] at hp
        subst hp
        rfl) rfl rfl
  · exact chain_snapshots _ _ _ _ _ _ hchain hlast
      (by
        intro p hp
        rcases List.mem_cons.mp hp with rfl | hp'
        · rfl
        · rcases List.mem_cons.mp hp' with rfl | hp''
          · rfl
          · cases hp'') rfl rfl

/-- Claim C1. Every run resolves normally with a terminal snapshot (also the
last value streamed to `onProgress`): if zero steps completed, the
status is `failed`, the final report is the fixed explanatory
sentence, and the dedup / rank / synthesis phases never execute;
otherwise the run passes through `synthesizing` and ends `completed`
with the synthesized report over the deduplicated, ranked top-20
results. -/
theorem performDeepResearch_terminal_behaviour (prov : String → ProviderOutcome)
    (now year : Nat) (cache₀ : SearchCache) (mainQuery : String)
    (out : RunOutput) (hout : out = performDeepResearch prov now year cache₀ mainQuery) :
    (out.progress.status = .failed ∨ out.progress.status = .completed) ∧
    out.snapshots.getLast? = some out.progress ∧
    ((successfulStepsOf out.progress.steps).isEmpty = true →
      out.progress.status = .failed ∧
      out.progress.finalReport = some failReportText ∧
      out.dedupExecuted = false ∧ out.rankExecuted = false ∧ out.synthExecuted = false) ∧
    ((successfulStepsOf out.progress.steps).isEmpty = false →
      out.progress.status = .completed ∧
      RunStatus.synthesizing ∈ out.snapshots.map (fun p => p.status) ∧
      out.progress.finalReport = some (formatResearchReport mainQuery out.progress.steps
        ((rankResults (deduplicateResults (collectResults (successfulStepsOf out.progress.steps)))
          mainQuery).take 20)) ∧
      out.dedupExecuted = true ∧ out.rankExecuted = true ∧ out.synthExecuted = true) := by
  subst hout
  simp only [performDeepResearch, finishRun]
  split_ifs with hsucc
  · dsimp only
    refine ⟨Or.inl rfl, ?_, ?_, ?_⟩
    · exact List.getLast?_concat _
    · intro _
      exact ⟨rfl, rfl, rfl, rfl, rfl⟩
    · intro hNE
      simp [hsucc] at hNE
  · dsimp only
    refine ⟨Or.inr rfl, ?_, ?_, ?_⟩
    · rw [List.getLast?_append_of_ne_nil _ (by simp)]
      rfl
    · intro hE
      simp [hE] at hsucc
    · intro _
      refine ⟨rfl, ?_, rfl, rfl, rfl, rfl⟩
      simp

/-- A provider that always resolves with an empty result set (Scenario B). -/
def provNoResults : String → ProviderOutcome := fun q => .success ⟨[], q, "ts"⟩

set_option maxRecDepth 20000 in
/-- Claim C1 — witness: with a provider returning zero results for every
sub-query, the run ends `failed` with the fixed explanatory report. -/
theorem performDeepResearch_terminal_behaviour_witness :
    (performDeepResearch provNoResults 0 2025 ⟨[]⟩ ("alpha beta")).progress.status = .failed ∧
    (performDeepResearch provNoResults 0 2025 ⟨[]⟩ ("alpha beta")).progress.finalReport
      = some failReportText := by
  have h := performDeepResearch_terminal_behaviour provNoResults 0 2025 ⟨[]⟩ ("alpha beta")
    (performDeepResearch provNoResults 0 2025 ⟨[]⟩ ("alpha beta")) rfl
  have hE : (successfulStepsOf
      (performDeepResearch provNoResults 0 2025 ⟨[]⟩ ("alpha beta")).progress.steps).isEmpty
      = true := by decide
  exact ⟨(h.2.2.1 hE).1, (h.2.2.1 hE).2.1⟩

/-! ## Executor per-step claims: C2, C3 -/

/-- An empty result set as stored in the cache. -/
def emptyCachedResponse : SearchResponse := ⟨[], "q", "ts"⟩

/-- A cache holding an empty result set for query `"q"`. -/
def cacheWithEmptyHit : SearchCache := ⟨[("q", ⟨"q", emptyCachedResponse, 0⟩)]⟩

/-- A searching step for query `"q"`. -/
def stepOnQ : ResearchStep := ⟨"step-0", "q", .searching, none, none⟩

/-- A provider that must not be reached on a cache hit. -/
def provMustNotRun : String → ProviderOutcome := fun _ => .failure ("provider reached")

/-- Claim C2 — counterexample. On a cache hit the provider is indeed not
called, but when the cached result set is empty the step is marked
`failed` with `"No results found"`, not `completed` as the claim
states. -/
theorem executor_cache_hit_empty_fails :
    (cacheWithEmptyHit.get stepOnQ.query 0).1 = some emptyCachedResponse ∧
    (execStep provMustNotRun 0 cacheWithEmptyHit stepOnQ).2.2 = false ∧
    (execStep provMustNotRun 0 cacheWithEmptyHit stepOnQ).1.status = .failed ∧
    (execStep provMustNotRun 0 cacheWithEmptyHit stepOnQ).1.status ≠ .completed := by
  decide

/-- Claim C2 — amended. For every step whose query is present in the cache
at lookup time, the Executor does not call the provider and records
the cached result set on the step; the step is marked `completed` when
that set is non-empty, and `failed` with error `"No results found"`
when it is empty. -/
theorem executor_cache_hit_amended (prov : String → ProviderOutcome) (now : Nat)
    (c : SearchCache) (s : ResearchStep) (r : SearchResponse)
    (h : (c.get s.query now).1 = some r) :
    (execStep prov now c s).2.2 = false ∧
    (execStep prov now c s).1.results = some r ∧
    (execStep prov now c s).1.status = (if r.results.isEmpty then .failed else .completed) ∧
    (execStep prov now c s).1.error =
      (if r.results.isEmpty then some ("No results found") else s.error) := by
  unfold execStep
  rcases hg : c.get s.query now with ⟨o, c₁⟩
  rw [hg] at h
  simp only at h
  subst h
  exact ⟨rfl, rfl, rfl, rfl⟩

/-- A cache holding a non-empty result set for query `"q"`. -/
def someCachedResponse : SearchResponse := ⟨[⟨"T", "https://u", "S", none, none⟩], "q", "ts"⟩

/-- A cache holding `someCachedResponse` for query `"q"`. -/
def cacheWithHit : SearchCache := ⟨[("q", ⟨"q", someCachedResponse, 0⟩)]⟩

/-- Claim C2 — witness: the amended hit behaviour at a concrete cache. -/
theorem executor_cache_hit_amended_witness :
    (execStep provMustNotRun 0 cacheWithHit stepOnQ).2.2 = false ∧
    (execStep provMustNotRun 0 cacheWithHit stepOnQ).1.results = some someCachedResponse ∧
    (execStep provMustNotRun 0 cacheWithHit stepOnQ).1.status = .completed := by
  have h := executor_cache_hit_amended provMustNotRun 0 cacheWithHit stepOnQ someCachedResponse
    (by decide)
  refine ⟨h.1, h.2.1, ?_⟩
  rw [h.2.2.1]
  decide

/-- Storing a response and reading it back at the same instant succeeds
(shared helper for the executor's write-back). -/
lemma cacheSet_get_self_now (c : SearchCache) (q : String) (r : SearchResponse) (now : Nat) :
    ((c.set q r now).get q now).1 = some r := by
  have hlook : mapLookup (normalizeQuery q) (c.set q r now).cache
      = some ⟨normalizeQuery q, r, now⟩ := mapLookup_mapSet_self _ _ _
  simp only [SearchCache.get, hlook]
  have hv : isValid ⟨normalizeQuery q, r, now⟩ now = true := by
    simp [isValid, CACHE_DURATION]
  simp [hv]

/-- The final progress always carries one entry per planned step and a
totalSteps equal to the plan length. -/
lemma performDeepResearch_steps_shape (prov : String → ProviderOutcome)
    (now year : Nat) (cache₀ : SearchCache) (mainQuery : String) :
    (performDeepResearch prov now year cache₀ mainQuery).progress.steps
      = (execBatches prov now (planSteps (generateResearchQueries mainQuery year)).length
          cache₀ [] (planSteps (generateResearchQueries mainQuery year))).2.1 ∧
    (performDeepResearch prov now year cache₀ mainQuery).progress.totalSteps
      = (planSteps (generateResearchQueries mainQuery year)).length := by
  simp only [performDeepResearch, finishRun]
  split_ifs <;> exact ⟨rfl, rfl⟩

/-- Claim C3. On a cache miss the provider is called; a non-empty response
completes the step, an empty response fails it with `"No results
found"` while the empty set is still written back to the cache, a
timeout or provider error fails it with the underlying error message —
and in every case the run continues: every planned step of every run
is driven to a terminal status and the final array never loses an
entry. -/
theorem executor_cache_miss_and_run_continues (prov : String → ProviderOutcome) (now : Nat)
    (c : SearchCache) (s : ResearchStep) (h : (c.get s.query now).1 = none) :
    (execStep prov now c s).2.2 = true ∧
    (∀ r, prov s.query = .success r →
      (execStep prov now c s).1.results = some r ∧
      (r.results ≠ [] → (execStep prov now c s).1.status = .completed) ∧
      (r.results = [] → (execStep prov now c s).1.status = .failed ∧
        (execStep prov now c s).1.error = some ("No results found") ∧
        (((execStep prov now c s).2.1).get s.query now).1 = some r)) ∧
    (prov s.query = .timeout → (execStep prov now c s).1.status = .failed ∧
      (execStep prov now c s).1.error = some ("Search timeout")) ∧
    (∀ msg, prov s.query = .failure msg → msg ≠ "" →
      (execStep prov now c s).1.status = .failed ∧
      (execStep prov now c s).1.error = some msg) ∧
    (∀ (prov₂ : String → ProviderOutcome) (now₂ year₂ : Nat) (cache₂ : SearchCache)
        (topic : String),
      (performDeepResearch prov₂ now₂ year₂ cache₂ topic).progress.steps.length
        = (performDeepResearch prov₂ now₂ year₂ cache₂ topic).progress.totalSteps ∧
      ∀ x ∈ (performDeepResearch prov₂ now₂ year₂ cache₂ topic).progress.steps,
        x.status = .completed ∨ x.status = .failed) := by
  unfold execStep
  rcases hg : c.get s.query now with ⟨o, c₁⟩
  rw [hg] at h
  simp only at h
  subst h
  refine ⟨?_, ?_, ?_, ?_, ?_⟩
  · cases hp : prov s.query <;> simp
  · intro r hp
    rw [hp]
    refine ⟨rfl, ?_, ?_⟩
    · intro hr
      simp only [applyResults]
      simp [hr]
    · intro hr
      refine ⟨?_, ?_, ?_⟩
      · simp only [applyResults]
        simp [hr]
      · simp only [applyResults]
        simp [hr]
      · exact cacheSet_get_self_now c₁ s.query r now
  · intro hp
    rw [hp]
    exact ⟨rfl, rfl⟩
  · intro msg hp hmsg
    rw [hp]
    refine ⟨rfl, ?_⟩
    simp [hmsg]
  · intro prov₂ now₂ year₂ cache₂ topic
    obtain ⟨⟨procd, hfin, hlen, hterm⟩, _, _⟩ := execBatches_spec prov₂ now₂
      (planSteps (generateResearchQueries topic year₂)).length cache₂ []
      (planSteps (generateResearchQueries topic year₂)) (planSteps_pending _)
    obtain ⟨hsteps, htotal⟩ :=
      performDeepResearch_steps_shape prov₂ now₂ year₂ cache₂ topic
    constructor
    · rw [hsteps, htotal, hfin]
      simpa using hlen
    · intro x hx
      rw [hsteps, hfin] at hx
      simp only [List.nil_append] at hx
      exact hterm x hx

/-- A concrete provider for the C3 witness: empty results on the main
query, an error elsewhere. -/
def provMixed : String → ProviderOutcome := fun q =>
  if q = "q" then .success ⟨[], "q", "ts"⟩ else .timeout

/-- Claim C3 — witness: the miss behaviour at a concrete empty cache, empty
response and timeout. -/
theorem executor_cache_miss_witness :
    (execStep provMixed 0 ⟨[]⟩ stepOnQ).2.2 = true ∧
    (execStep provMixed 0 ⟨[]⟩ stepOnQ).1.status = .failed ∧
    (execStep provMixed 0 ⟨[]⟩ stepOnQ).1.error = some ("No results found") ∧
    (((execStep provMixed 0 ⟨[]⟩ stepOnQ).2.1).get ("q") 0).1 = some ⟨[], "q", "ts"⟩ := by
  have h := executor_cache_miss_and_run_continues provMixed 0 ⟨[]⟩ stepOnQ (by decide)
  have hp : provMixed stepOnQ.query = .success ⟨[], "q", "ts"⟩ := by decide
  have h2 := (h.2.1 ⟨[], "q", "ts"⟩ hp).2.2 rfl
  exact ⟨h.1, h2.1, h2.2.1, h2.2.2⟩
